import Mathlib

/-!
Verification of the document formatter of `src/views/data-browsing-app/monaco-viewer.tsx`:
the field limiter (`sliceDocumentFields`), the recursive string-value truncator
(`truncateLongValues`), the pretty-printer (`formatStringValue`,
`formatJsonWithUnquotedKeys`) and the fold-range scanner (`provideFoldingRanges`).

JavaScript strings are modelled as lists of characters (`Str`); JSON-like values as the
inductive type `JValue`.  All definitions are executable and translated clause by clause
from the TypeScript source.
-/

/-- A JavaScript string, modelled as its list of characters. -/
abbrev Str := List Char

/-- A JSON-like value as handled by the viewer: `null`, `undefined`, booleans, numbers,
strings, arrays and objects (ordered key/value lists).  Numbers carry their canonical
textual form (the result of JavaScript `String(n)`) since no operation under
verification inspects numeric values beyond printing them. -/
inductive JValue where
  | null : JValue
  | undef : JValue
  | bool (b : Bool) : JValue
  | num (lit : Str) : JValue
  | str (s : Str) : JValue
  | arr (items : List JValue) : JValue
  | obj (fields : List (Str × JValue)) : JValue
deriving Repr

/-- A document is a JavaScript object: an ordered list of key/value pairs
(`Object.entries` order). -/
abbrev Document := List (Str × JValue)

/-- Source constant `MAX_VALUE_LENGTH = 70` (monaco-viewer.tsx line 194). -/
def MAX_VALUE_LENGTH : Nat := 70

/-- Source constant `MAX_INITIAL_FIELDS = 25` (monaco-viewer.tsx line 196). -/
def MAX_INITIAL_FIELDS : Nat := 25

/-- The fixed ellipsis marker `"..."` appended to truncated strings. -/
def ellipsis : Str := ".".data ++ ".".data ++ ".".data

/-- Translation of `sliceDocumentFields` (monaco-viewer.tsx lines 201-209):
`Object.entries(obj)` is the entry list itself, `entries.slice(0, maxFields)` is
`List.take`, and `Object.fromEntries` rebuilds the document (keys of a JavaScript
object are distinct, so this is the plain list of the first `maxFields` entries). -/
def sliceDocumentFields (obj : Document) (maxFields : Nat) : Document :=
  if obj.length ≤ maxFields then obj else obj.take maxFields

mutual

/-- Spec contract `truncateValues(value, maxLen)` (spec section 4.2) with the body
translated from `truncateLongValues` (monaco-viewer.tsx lines 214-235), the module
constant `MAX_VALUE_LENGTH` abstracted into the parameter `maxLen`:
strings longer than `maxLen` are cut to their first `maxLen` characters plus `"..."`
(`obj.substring(0, maxLen) + '...'`), arrays are mapped over, objects are rebuilt
entry by entry, and every other value is returned unchanged. -/
def truncateValues (maxLen : Nat) : JValue → JValue
  | .str s => if s.length > maxLen then .str (s.take maxLen ++ ellipsis) else .str s
  | .arr items => .arr (truncateValuesList maxLen items)
  | .obj fields => .obj (truncateValuesFields maxLen fields)
  | v => v

/-- The `obj.map(item => truncateLongValues(item))` branch. -/
def truncateValuesList (maxLen : Nat) : List JValue → List JValue
  | [] => []
  | x :: xs => truncateValues maxLen x :: truncateValuesList maxLen xs

/-- The `for (const [key, value] of Object.entries(obj))` branch. -/
def truncateValuesFields (maxLen : Nat) : List (Str × JValue) → List (Str × JValue)
  | [] => []
  | (k, v) :: fs => (k, truncateValues maxLen v) :: truncateValuesFields maxLen fs

end

/-- Translation of `truncateLongValues` (monaco-viewer.tsx lines 214-235) exactly as in
the source, with the fixed cap `MAX_VALUE_LENGTH`. -/
def truncateLongValues (v : JValue) : JValue :=
  truncateValues MAX_VALUE_LENGTH v

theorem truncateValuesList_eq_map (maxLen : Nat) (xs : List JValue) :
    truncateValuesList maxLen xs = xs.map (truncateValues maxLen) := by
  induction xs with
  | nil => simp [truncateValuesList]
  | cons x xs ih => simp [truncateValuesList, ih]

theorem truncateValuesFields_eq_map (maxLen : Nat) (fs : List (Str × JValue)) :
    truncateValuesFields maxLen fs = fs.map (fun kv => (kv.1, truncateValues maxLen kv.2)) := by
  induction fs with
  | nil => simp [truncateValuesFields]
  | cons kv fs ih => cases kv; simp [truncateValuesFields, ih]

/-- Structural induction for `JValue` with member-wise hypotheses for the nested lists. -/
theorem JValue.my_induction (P : JValue → Prop)
    (hnull : P .null) (hundef : P .undef)
    (hbool : ∀ b, P (.bool b)) (hnum : ∀ lit, P (.num lit))
    (hstr : ∀ s, P (.str s))
    (harr : ∀ items, (∀ x, x ∈ items → P x) → P (.arr items))
    (hobj : ∀ fields, (∀ k v, (k, v) ∈ fields → P v) → P (.obj fields)) :
    ∀ v, P v
  | .null => hnull
  | .undef => hundef
  | .bool b => hbool b
  | .num lit => hnum lit
  | .str s => hstr s
  | .arr items =>
    harr items (fun x hx =>
      have : sizeOf x < 1 + sizeOf items := by
        have := List.sizeOf_lt_of_mem hx
        omega
      JValue.my_induction P hnull hundef hbool hnum hstr harr hobj x)
  | .obj fields =>
    hobj fields (fun k v hv =>
      have : sizeOf v < 1 + sizeOf fields := by
        have h1 := List.sizeOf_lt_of_mem hv
        have h2 : sizeOf (k, v) = 1 + sizeOf k + sizeOf v := rfl
        omega
      JValue.my_induction P hnull hundef hbool hnum hstr harr hobj v)
termination_by v => sizeOf v

/-- Claim C1: for every string cap `C`, the value truncator replaces each string leaf of
length `L > C` by its first `C` characters followed by the fixed marker `"..."` (the kept
content, excluding the marker, has length exactly `C`), leaves strings of length `≤ C`
unchanged, leaves non-string scalars (number, boolean, null, undefined) unchanged, maps
itself over every array element preserving order and length, and rebuilds objects with
the same keys in the same order with each value recursively truncated. -/
theorem truncateValues_characterization (C : Nat) (s lit : Str) (b : Bool)
    (items : List JValue) (fields : List (Str × JValue)) :
    (s.length > C →
      truncateValues C (.str s) = .str (s.take C ++ ellipsis) ∧ (s.take C).length = C)
    ∧ (s.length ≤ C → truncateValues C (.str s) = .str s)
    ∧ truncateValues C .null = .null
    ∧ truncateValues C .undef = .undef
    ∧ truncateValues C (.bool b) = .bool b
    ∧ truncateValues C (.num lit) = .num lit
    ∧ (truncateValues C (.arr items) = .arr (items.map (truncateValues C))
        ∧ (items.map (truncateValues C)).length = items.length)
    ∧ (truncateValues C (.obj fields)
          = .obj (fields.map (fun kv => (kv.1, truncateValues C kv.2)))
        ∧ (fields.map (fun kv => (kv.1, truncateValues C kv.2))).map Prod.fst
            = fields.map Prod.fst) := by
  refine ⟨?_, ?_, rfl, rfl, rfl, rfl, ⟨?_, ?_⟩, ⟨?_, ?_⟩⟩
  · intro h
    refine ⟨by simp [truncateValues, h], ?_⟩
    rw [List.length_take]
    exact Nat.min_eq_left (Nat.le_of_lt h)
  · intro h
    simp [truncateValues, Nat.not_lt.mpr h]
  · simp [truncateValues, truncateValuesList_eq_map]
  · simp
  · simp [truncateValues, truncateValuesFields_eq_map]
  · simp

/-- Witness for C1 at cap 2: the 3-character string is cut to 2 kept characters plus the
marker, and at cap 4 it is unchanged. -/
theorem truncateValues_characterization_witness :
    (truncateValues 2 (.str "abc".data) = .str ("abc".data.take 2 ++ ellipsis)
      ∧ ("abc".data.take 2).length = 2)
    ∧ truncateValues 4 (.str "abc".data) = .str "abc".data :=
  ⟨(truncateValues_characterization 2 "abc".data [] false [] []).1 (by decide),
   (truncateValues_characterization 4 "abc".data [] false [] []).2.1 (by decide)⟩

/-- Claim C2: for a positive cap `N`, the field limiter returns the document itself when
its own-key count is `≤ N`, and otherwise returns exactly the first `N` entries in
original insertion order (each key present in the input with its original value); dropped
keys are surfaced only as the count `total - N`. -/
theorem sliceDocumentFields_characterization (doc : Document) (N : Nat) (hpos : 0 < N) :
    (doc.length ≤ N → sliceDocumentFields doc N = doc)
    ∧ (N < doc.length →
        sliceDocumentFields doc N = doc.take N
        ∧ (sliceDocumentFields doc N).length = N
        ∧ (sliceDocumentFields doc N).map Prod.fst = (doc.map Prod.fst).take N
        ∧ (∀ kv ∈ sliceDocumentFields doc N, kv ∈ doc)
        ∧ doc.length - (sliceDocumentFields doc N).length = doc.length - N) := by
  constructor
  · intro h
    simp [sliceDocumentFields, h]
  · intro h
    have hnot : ¬ doc.length ≤ N := Nat.not_le.mpr h
    have heq : sliceDocumentFields doc N = doc.take N := by
      simp [sliceDocumentFields, hnot]
    have hlen : (sliceDocumentFields doc N).length = N := by
      rw [heq, List.length_take]
      exact Nat.min_eq_left (Nat.le_of_lt h)
    refine ⟨heq, hlen, ?_, ?_, by rw [hlen]⟩
    · rw [heq]
      exact List.map_take _ _ _
    · intro kv hkv
      rw [heq] at hkv
      exact List.take_subset N doc hkv

/-- Witness for C2 on a two-field document: cap 1 keeps exactly the first entry, cap 5
returns the document unchanged. -/
theorem sliceDocumentFields_characterization_witness :
    sliceDocumentFields [("a".data, JValue.null), ("b".data, JValue.null)] 1
        = [("a".data, JValue.null), ("b".data, JValue.null)].take 1
    ∧ sliceDocumentFields [("a".data, JValue.null), ("b".data, JValue.null)] 5
        = [("a".data, JValue.null), ("b".data, JValue.null)] :=
  ⟨((sliceDocumentFields_characterization
      [("a".data, JValue.null), ("b".data, JValue.null)] 1 (by decide)).2 (by decide)).1,
   (sliceDocumentFields_characterization
      [("a".data, JValue.null), ("b".data, JValue.null)] 5 (by decide)).1 (by decide)⟩

/-- Claim C10: the value truncator with its fixed cap of 70 is idempotent, and in
particular a string that is already 70 kept characters plus the `"..."` marker (73
characters, which exceeds the cap) re-truncates to the identical string. -/
theorem truncateLongValues_idempotent (v : JValue) (t : Str) (h70 : t.length = 70) :
    truncateLongValues (truncateLongValues v) = truncateLongValues v
    ∧ truncateLongValues (.str (t ++ ellipsis)) = .str (t ++ ellipsis) := by
  have hstr : ∀ u : Str, u.length = 70 →
      truncateValues MAX_VALUE_LENGTH (.str (u ++ ellipsis)) = .str (u ++ ellipsis) := by
    intro u hu
    have hlen : (u ++ ellipsis).length = 73 := by
      simp [ellipsis, hu]
    have hgt : (u ++ ellipsis).length > MAX_VALUE_LENGTH := by
      rw [hlen]; decide
    have htake : (u ++ ellipsis).take MAX_VALUE_LENGTH = u := List.take_left' hu
    simp [truncateValues, hgt, htake]
  constructor
  · induction v using JValue.my_induction with
    | hnull => rfl
    | hundef => rfl
    | hbool b => rfl
    | hnum lit => rfl
    | hstr s =>
      by_cases h : s.length > MAX_VALUE_LENGTH
      · have htake70 : (s.take MAX_VALUE_LENGTH).length = 70 := by
          rw [List.length_take]
          exact Nat.min_eq_left (Nat.le_of_lt h)
        simp only [truncateLongValues, truncateValues, h, if_pos]
        exact hstr _ htake70
      · simp [truncateLongValues, truncateValues, h]
    | harr items ih =>
      simp only [truncateLongValues, truncateValues, truncateValuesList_eq_map,
        List.map_map]
      congr 1
      apply List.map_congr_left
      intro a ha
      exact ih a ha
    | hobj fields ih =>
      simp only [truncateLongValues, truncateValues, truncateValuesFields_eq_map,
        List.map_map]
      congr 1
      apply List.map_congr_left
      intro kv hkv
      have := ih kv.1 kv.2 (by cases kv; exact hkv)
      simp only [truncateLongValues] at this
      simp [Function.comp, this]
  · exact hstr t h70

/-- Witness for C10 at `v = null` and the concrete 70-character string `aa…a`. -/
theorem truncateLongValues_idempotent_witness :
    truncateLongValues (truncateLongValues .null) = truncateLongValues .null
    ∧ truncateLongValues (.str (List.replicate 70 'a' ++ ellipsis))
        = .str (List.replicate 70 'a' ++ ellipsis) :=
  truncateLongValues_idempotent .null (List.replicate 70 'a') (by decide)

/-- The backtick character, the delimiter of JavaScript template literals. -/
def backtick : Char := '\x60'

/-- JavaScript `'  '.repeat(n)`-style repetition of a string. -/
def repeatStr (s : Str) (n : Nat) : Str :=
  (List.replicate n s).join

/-- The indentation produced by `'  '.repeat(indent)`. -/
def indentStrOf (indent : Nat) : Str :=
  repeatStr "  ".data indent

/-- JavaScript `str.replace(/\\/g, '\\\\')`: every backslash is doubled. -/
def escapeBackslash : Str → Str
  | [] => []
  | '\\' :: r => '\\' :: '\\' :: escapeBackslash r
  | c :: r => c :: escapeBackslash r

/-- JavaScript `str.replace(/`/g, '\\`')`: a backslash is inserted before every
backtick. -/
def escapeBacktick : Str → Str
  | [] => []
  | c :: r => if c = backtick then '\\' :: c :: escapeBacktick r else c :: escapeBacktick r

/-- JavaScript `str.replace(/\$\{/g, '\\${')`: a backslash is inserted before every
occurrence of the two-character interpolation marker. -/
def escapeDollarBrace : Str → Str
  | [] => []
  | '$' :: '\x7b' :: r => '\\' :: '$' :: '\x7b' :: escapeDollarBrace r
  | c :: r => c :: escapeDollarBrace r

/-- The template-literal escaping of `formatStringValue` (monaco-viewer.tsx line 245):
the three sequential global replacements applied to a multi-line string. -/
def escapeForTemplate (s : Str) : Str :=
  escapeDollarBrace (escapeBacktick (escapeBackslash s))

/-- JavaScript `str.replace(/"/g, '\\"')`. -/
def escapeQuote : Str → Str
  | [] => []
  | '"' :: r => '\\' :: '"' :: escapeQuote r
  | c :: r => c :: escapeQuote r

/-- JavaScript `str.replace(/\t/g, '\\t')`. -/
def escapeTab : Str → Str
  | [] => []
  | '\t' :: r => '\\' :: 't' :: escapeTab r
  | c :: r => c :: escapeTab r

/-- JavaScript `str.split(/\r?\n/)`: split at every newline, consuming one carriage
return immediately before it. -/
def splitLinesRN : Str → List Str
  | [] => [[]]
  | '\r' :: '\n' :: r => [] :: splitLinesRN r
  | c :: r =>
    if c = '\n' then [] :: splitLinesRN r
    else
      match splitLinesRN r with
      | [] => [[c]]
      | l :: ls => (c :: l) :: ls

/-- JavaScript `array.join(sep)` on a list of strings. -/
def joinSep (sep : Str) : List Str → Str
  | [] => []
  | [x] => x
  | x :: xs => x ++ sep ++ joinSep sep xs

/-- Split at every occurrence of one character (used to reason about the lines of the
produced text, which are joined with `'\n'`). -/
def splitOnChar (c : Char) : Str → List Str
  | [] => [[]]
  | a :: r =>
    if a = c then [] :: splitOnChar c r
    else
      match splitOnChar c r with
      | [] => [[a]]
      | l :: ls => (a :: l) :: ls

/-- Translation of `formatStringValue` (monaco-viewer.tsx lines 241-264).  A string
containing a newline or carriage return becomes a template literal: the escaped text is
split into lines, the first line is prefixed with the opening backtick, every further
line is prefixed with `'  '.repeat(indent) + '   '`, the lines are joined with `'\n'`
and the closing backtick is appended.  Any other string is wrapped in double quotes
with backslash, quote and tab escaped. -/
def formatStringValue (s : Str) (indent : Nat) : Str :=
  if s.contains '\n' || s.contains '\r' then
    let escaped := escapeForTemplate s
    let continuationIndent := repeatStr "  ".data indent ++ "   ".data
    match splitLinesRN escaped with
    | [] => [backtick, backtick]
    | l0 :: rest =>
      joinSep "\n".data ((backtick :: l0) :: rest.map (fun l => continuationIndent ++ l))
        ++ [backtick]
  else
    '"' :: (escapeTab (escapeQuote (escapeBackslash s)) ++ ['"'])

mutual

/-- Translation of `formatJsonWithUnquotedKeys` (monaco-viewer.tsx lines 274-309):
`null`/`undefined` print as literals, numbers and booleans via `String(obj)`, strings
via `formatStringValue`, empty containers as `[]`/`{}`, arrays and objects as
newline-separated comma-joined blocks whose entries are rendered one indent level
deeper; object keys are emitted verbatim, unquoted, followed by `: `. -/
def formatJsonWithUnquotedKeys (v : JValue) (indent : Nat) : Str :=
  match v with
  | .null => "null".data
  | .undef => "undefined".data
  | .num lit => lit
  | .bool b => if b then "true".data else "false".data
  | .str s => formatStringValue s indent
  | .arr items =>
    if items.isEmpty then "[]".data
    else
      '[' :: '\n' ::
        (joinSep ",\n".data (formatItems items indent)
          ++ '\n' :: (indentStrOf indent ++ [']']))
  | .obj fields =>
    if fields.isEmpty then "\x7b\x7d".data
    else
      '\x7b' :: '\n' ::
        (joinSep ",\n".data (formatFields fields indent)
          ++ '\n' :: (indentStrOf indent ++ ['\x7d']))

/-- The `obj.map(item => nextIndentStr + format(item, indent + 1))` branch. -/
def formatItems (items : List JValue) (indent : Nat) : List Str :=
  match items with
  | [] => []
  | x :: xs =>
    (indentStrOf (indent + 1) ++ formatJsonWithUnquotedKeys x (indent + 1))
      :: formatItems xs indent

/-- The `keys.map(key => nextIndentStr + key + ': ' + format(obj[key], indent + 1))`
branch. -/
def formatFields (fields : List (Str × JValue)) (indent : Nat) : List Str :=
  match fields with
  | [] => []
  | (k, v) :: fs =>
    (indentStrOf (indent + 1) ++ (k ++ ':' :: ' ' :: formatJsonWithUnquotedKeys v (indent + 1)))
      :: formatFields fs indent

end

/-- One-pass form of the template escaping, used only to drive induction with the case
split of the three replacement patterns. -/
def escOne : Str → Str
  | [] => []
  | '\\' :: r => '\\' :: '\\' :: escOne r
  | '\x60' :: r => '\\' :: '\x60' :: escOne r
  | '$' :: '\x7b' :: r => '\\' :: '$' :: '\x7b' :: escOne r
  | c :: r => c :: escOne r

/-- Modelled from the spec: the inverse of the documented escape rules for block
strings (spec section 4.3 and property 4) - an escaped backslash, an escaped backtick
and an escaped interpolation marker are restored; every other character is kept.  The
source has no such decoder; it exists only to state the round-trip claim. -/
def unescapeTemplate : Str → Str
  | [] => []
  | '\\' :: '\\' :: r => '\\' :: unescapeTemplate r
  | '\\' :: '\x60' :: r => '\x60' :: unescapeTemplate r
  | '\\' :: '$' :: '\x7b' :: r => '$' :: '\x7b' :: unescapeTemplate r
  | c :: r => c :: unescapeTemplate r

theorem escapeBackslash_cons (c : Char) (r : Str) :
    escapeBackslash (c :: r) =
      (if c = '\\' then ['\\', '\\'] else [c]) ++ escapeBackslash r := by
  by_cases h : c = '\\'
  · subst h; simp [escapeBackslash]
  · simp [escapeBackslash, h]

theorem escapeBacktick_cons (c : Char) (r : Str) :
    escapeBacktick (c :: r) =
      (if c = backtick then ['\\', c] else [c]) ++ escapeBacktick r := by
  by_cases h : c = backtick
  · simp [escapeBacktick, h]
  · simp [escapeBacktick, h]

theorem escapeDollarBrace_cons_ne (c : Char) (r : Str)
    (h : ¬(c = '$' ∧ r.head? = some '\x7b')) :
    escapeDollarBrace (c :: r) = c :: escapeDollarBrace r := by
  match c, r with
  | c, [] =>
    by_cases hc : c = '$' <;> simp [escapeDollarBrace]
  | c, y :: r' =>
    by_cases hc : c = '$'
    · subst hc
      have hy : ¬ y = '\x7b' := by
        intro hy
        exact h ⟨rfl, by simp [hy]⟩
      simp [escapeDollarBrace, hy]
    · simp [escapeDollarBrace, hc]

theorem escapeBackslash_head (d : Char) (r : Str) :
    ∃ t, escapeBackslash (d :: r) = d :: t := by
  by_cases h : d = '\\'
  · subst h; exact ⟨'\\' :: escapeBackslash r, by simp [escapeBackslash]⟩
  · exact ⟨escapeBackslash r, by simp [escapeBackslash_cons, h]⟩

theorem escapeBacktick_head (d : Char) (t : Str) :
    ∃ u, escapeBacktick (d :: t) = (if d = backtick then '\\' else d) :: u := by
  by_cases h : d = backtick
  · subst h; exact ⟨backtick :: escapeBacktick t, by simp [escapeBacktick_cons]⟩
  · exact ⟨escapeBacktick t, by simp [escapeBacktick_cons, h]⟩

theorem escapeDollarBrace_cons_of_ne_dollar (c : Char) (r : Str) (h : c ≠ '$') :
    escapeDollarBrace (c :: r) = c :: escapeDollarBrace r :=
  escapeDollarBrace_cons_ne c r (fun hc => h hc.1)

theorem escapeForTemplate_bs (r : Str) :
    escapeForTemplate ('\\' :: r) = '\\' :: '\\' :: escapeForTemplate r := by
  have hne : ¬ ('\\' : Char) = backtick := by decide
  have h1 : escapeBackslash ('\\' :: r) = '\\' :: '\\' :: escapeBackslash r := by
    simp [escapeBackslash]
  have h2 : escapeBacktick ('\\' :: '\\' :: escapeBackslash r)
      = '\\' :: '\\' :: escapeBacktick (escapeBackslash r) := by
    rw [escapeBacktick_cons, if_neg hne, escapeBacktick_cons, if_neg hne]
    rfl
  have h3 : escapeDollarBrace ('\\' :: '\\' :: escapeBacktick (escapeBackslash r))
      = '\\' :: '\\' :: escapeDollarBrace (escapeBacktick (escapeBackslash r)) := by
    rw [escapeDollarBrace_cons_of_ne_dollar _ _ (by decide),
      escapeDollarBrace_cons_of_ne_dollar _ _ (by decide)]
  rw [escapeForTemplate, h1, h2, h3, escapeForTemplate]

theorem escapeForTemplate_bt (r : Str) :
    escapeForTemplate ('\x60' :: r) = '\\' :: '\x60' :: escapeForTemplate r := by
  have h1 : escapeBackslash ('\x60' :: r) = '\x60' :: escapeBackslash r := by
    rw [escapeBackslash_cons, if_neg (by decide)]
    rfl
  have h2 : escapeBacktick ('\x60' :: escapeBackslash r)
      = '\\' :: '\x60' :: escapeBacktick (escapeBackslash r) := by
    rw [escapeBacktick_cons, if_pos (show ('\x60' : Char) = backtick from rfl)]
    rfl
  have h3 : escapeDollarBrace ('\\' :: '\x60' :: escapeBacktick (escapeBackslash r))
      = '\\' :: '\x60' :: escapeDollarBrace (escapeBacktick (escapeBackslash r)) := by
    rw [escapeDollarBrace_cons_of_ne_dollar _ _ (by decide),
      escapeDollarBrace_cons_of_ne_dollar _ _ (by decide)]
  rw [escapeForTemplate, h1, h2, h3, escapeForTemplate]

theorem escapeForTemplate_db (r : Str) :
    escapeForTemplate ('$' :: '\x7b' :: r) = '\\' :: '$' :: '\x7b' :: escapeForTemplate r := by
  have h1 : escapeBackslash ('$' :: '\x7b' :: r) = '$' :: '\x7b' :: escapeBackslash r := by
    rw [escapeBackslash_cons, if_neg (by decide), escapeBackslash_cons, if_neg (by decide)]
    rfl
  have h2 : escapeBacktick ('$' :: '\x7b' :: escapeBackslash r)
      = '$' :: '\x7b' :: escapeBacktick (escapeBackslash r) := by
    rw [escapeBacktick_cons, if_neg (by decide), escapeBacktick_cons, if_neg (by decide)]
    rfl
  have h3 : escapeDollarBrace ('$' :: '\x7b' :: escapeBacktick (escapeBackslash r))
      = '\\' :: '$' :: '\x7b' :: escapeDollarBrace (escapeBacktick (escapeBackslash r)) := by
    simp [escapeDollarBrace]
  rw [escapeForTemplate, h1, h2, h3, escapeForTemplate]

theorem escapeForTemplate_other (c : Char) (r : Str)
    (hbs : c ≠ '\\') (hbt : c ≠ '\x60')
    (hdb : ¬(c = '$' ∧ r.head? = some '\x7b')) :
    escapeForTemplate (c :: r) = c :: escapeForTemplate r := by
  have hbt2 : ¬ c = backtick := hbt
  have h1 : escapeBackslash (c :: r) = c :: escapeBackslash r := by
    rw [escapeBackslash_cons, if_neg hbs]
    rfl
  have h2 : escapeBacktick (c :: escapeBackslash r)
      = c :: escapeBacktick (escapeBackslash r) := by
    rw [escapeBacktick_cons, if_neg hbt2]
    rfl
  have h3 : escapeDollarBrace (c :: escapeBacktick (escapeBackslash r))
      = c :: escapeDollarBrace (escapeBacktick (escapeBackslash r)) := by
    apply escapeDollarBrace_cons_ne
    rintro ⟨rfl, hhead⟩
    match r, hdb, hhead with
    | [], _, hhead => simp [escapeBackslash, escapeBacktick] at hhead
    | d :: r', hdb, hhead =>
      obtain ⟨t1, ht1⟩ := escapeBackslash_head d r'
      obtain ⟨t2, ht2⟩ := escapeBacktick_head d t1
      rw [ht1, ht2] at hhead
      simp only [List.head?_cons, Option.some.injEq] at hhead
      by_cases hd : d = backtick
      · rw [if_pos hd] at hhead
        exact absurd hhead (by decide)
      · rw [if_neg hd] at hhead
        exact hdb ⟨rfl, by simp [hhead]⟩
  rw [escapeForTemplate, h1, h2, h3, escapeForTemplate]

theorem unescapeTemplate_cons_ne (c : Char) (r : Str) (h : c ≠ '\\') :
    unescapeTemplate (c :: r) = c :: unescapeTemplate r := by
  match r with
  | [] => simp [unescapeTemplate, h]
  | y :: r' =>
    match y, r' with
    | '\\', r' => simp [unescapeTemplate, h]
    | '\x60', r' => simp [unescapeTemplate, h]
    | '$', [] => simp [unescapeTemplate, h]
    | '$', z :: r'' => simp [unescapeTemplate, h]
    | y, r' => simp [unescapeTemplate, h]

/-- Reversing the three documented escape rules recovers every string. -/
theorem unescapeTemplate_escapeForTemplate (s : Str) :
    unescapeTemplate (escapeForTemplate s) = s := by
  induction s using escOne.induct with
  | case1 => rfl
  | case2 r ih =>
    rw [escapeForTemplate_bs]
    simp [unescapeTemplate, ih]
  | case3 r ih =>
    rw [escapeForTemplate_bt]
    simp [unescapeTemplate, ih]
  | case4 r ih =>
    rw [escapeForTemplate_db]
    simp [unescapeTemplate, ih]
  | case5 c r h1 h2 h3 ih =>
    have hbs : c ≠ '\\' := fun h => h1 h
    have hbt : c ≠ '\x60' := fun h => h2 h
    have hdb : ¬(c = '$' ∧ r.head? = some '\x7b') := by
      rintro ⟨rfl, hh⟩
      match r, hh with
      | y :: r', hh =>
        simp at hh
        exact h3 r' rfl (by rw [hh])
    rw [escapeForTemplate_other c r hbs hbt hdb]
    rw [unescapeTemplate_cons_ne c _ hbs, ih]

theorem splitOnChar_ne_nil (c : Char) (s : Str) : splitOnChar c s ≠ [] := by
  cases s with
  | nil => simp [splitOnChar]
  | cons a r =>
    by_cases h : a = c
    · simp [splitOnChar, h]
    · simp only [splitOnChar, if_neg h]
      cases hsp : splitOnChar c r <;> simp

theorem exists_cons_splitOnChar (c : Char) (s : Str) :
    ∃ l ls, splitOnChar c s = l :: ls := by
  cases hsp : splitOnChar c s with
  | nil => exact absurd hsp (splitOnChar_ne_nil c s)
  | cons l ls => exact ⟨l, ls, rfl⟩

theorem not_mem_of_mem_splitOnChar (c : Char) (s : Str) :
    ∀ l ∈ splitOnChar c s, c ∉ l := by
  induction s with
  | nil => simp [splitOnChar]
  | cons a r ih =>
    by_cases h : a = c
    · simp only [splitOnChar, if_pos h]
      intro l hl
      rcases List.mem_cons.mp hl with h1 | h1
      · subst h1; simp
      · exact ih l h1
    · simp only [splitOnChar, if_neg h]
      obtain ⟨x, xs, hx⟩ := exists_cons_splitOnChar c r
      rw [hx]
      intro l hl
      rcases List.mem_cons.mp hl with h1 | h1
      · subst h1
        intro hmem
        rcases List.mem_cons.mp hmem with h2 | h2
        · exact h h2.symm
        · exact ih x (by rw [hx]; exact List.mem_cons_self x xs) h2
      · exact ih l (by rw [hx]; exact List.mem_cons_of_mem x h1)

theorem joinSep_cons_head (sep : Str) (x : Char) (l : Str) (ls : List Str) :
    joinSep sep ((x :: l) :: ls) = x :: joinSep sep (l :: ls) := by
  cases ls with
  | nil => simp [joinSep]
  | cons y ys => simp [joinSep]

theorem joinSep_splitOnChar (c : Char) (s : Str) :
    joinSep [c] (splitOnChar c s) = s := by
  induction s with
  | nil => simp [splitOnChar, joinSep]
  | cons a r ih =>
    by_cases h : a = c
    · subst h
      have hs : splitOnChar a (a :: r) = [] :: splitOnChar a r := by
        simp [splitOnChar]
      rw [hs]
      obtain ⟨x, xs, hx⟩ := exists_cons_splitOnChar a r
      rw [hx]
      have hjoin : joinSep [a] ([] :: x :: xs) = a :: joinSep [a] (x :: xs) := by
        simp [joinSep]
      rw [hjoin, ← hx, ih]
    · simp only [splitOnChar, if_neg h]
      obtain ⟨x, xs, hx⟩ := exists_cons_splitOnChar c r
      rw [hx, joinSep_cons_head, ← hx, ih]

theorem splitOnChar_of_not_mem (c : Char) (a : Str) (h : c ∉ a) :
    splitOnChar c a = [a] := by
  induction a with
  | nil => simp [splitOnChar]
  | cons x r ih =>
    have hx : ¬ x = c := fun he => h (by simp [he])
    have hr : c ∉ r := fun hm => h (List.mem_cons_of_mem x hm)
    simp only [splitOnChar, if_neg hx, ih hr]

theorem splitOnChar_append_cons (c : Char) (a b : Str) (h : c ∉ a) :
    splitOnChar c (a ++ c :: b) = a :: splitOnChar c b := by
  induction a with
  | nil => simp [splitOnChar]
  | cons x r ih =>
    have hx : ¬ x = c := fun he => h (by simp [he])
    have hr : c ∉ r := fun hm => h (List.mem_cons_of_mem x hm)
    simp only [List.cons_append, splitOnChar, if_neg hx, List.append_eq]
    rw [ih hr]

theorem splitOnChar_joinSep (c : Char) (ls : List Str) (h1 : ls ≠ [])
    (h2 : ∀ l ∈ ls, c ∉ l) : splitOnChar c (joinSep [c] ls) = ls := by
  induction ls with
  | nil => exact absurd rfl h1
  | cons x xs ih =>
    cases xs with
    | nil =>
      simp only [joinSep]
      exact splitOnChar_of_not_mem c x (h2 x (List.mem_cons_self x []))
    | cons y ys =>
      have hx : c ∉ x := h2 x (List.mem_cons_self x _)
      have hxs : ∀ l ∈ y :: ys, c ∉ l := fun l hl => h2 l (List.mem_cons_of_mem x hl)
      have : joinSep [c] (x :: y :: ys) = x ++ c :: joinSep [c] (y :: ys) := by
        simp [joinSep]
      rw [this, splitOnChar_append_cons c x _ hx, ih (by simp) hxs]

/-- Apply a function to the last element of a list only. -/
def mapLast (f : Str → Str) : List Str → List Str
  | [] => []
  | [x] => [f x]
  | x :: xs => x :: mapLast f xs

theorem joinSep_append_right (sep t : Str) (ls : List Str) (h : ls ≠ []) :
    joinSep sep ls ++ t = joinSep sep (mapLast (· ++ t) ls) := by
  induction ls with
  | nil => exact absurd rfl h
  | cons x xs ih =>
    cases xs with
    | nil => simp [joinSep, mapLast]
    | cons y ys =>
      have hm : mapLast (· ++ t) (x :: y :: ys) = x :: mapLast (· ++ t) (y :: ys) := by
        simp [mapLast]
      rw [hm]
      have hj : joinSep sep (x :: y :: ys) = x ++ sep ++ joinSep sep (y :: ys) := by
        simp [joinSep]
      have hj2 : joinSep sep (x :: mapLast (· ++ t) (y :: ys))
          = x ++ sep ++ joinSep sep (mapLast (· ++ t) (y :: ys)) := by
        cases ys with
        | nil => simp [joinSep, mapLast]
        | cons z zs =>
          have : mapLast (· ++ t) (y :: z :: zs) = y :: mapLast (· ++ t) (z :: zs) := by
            simp [mapLast]
          simp [this, joinSep]
      rw [hj, hj2, ← ih (by simp)]
      simp

theorem splitLinesRN_ne_nil (s : Str) : splitLinesRN s ≠ [] := by
  induction s using splitLinesRN.induct with
  | case1 => simp [splitLinesRN]
  | case2 r ih => simp [splitLinesRN]
  | case3 r h ih => rw [splitLinesRN.eq_3 _ _ h]; simp
  | case4 c r h hc hnil ih => rw [splitLinesRN.eq_3 _ _ h]; simp [hc, hnil]
  | case5 c r h hc l ls hcons ih => rw [splitLinesRN.eq_3 _ _ h]; simp [hc, hcons]

theorem not_mem_nl_splitLinesRN (s : Str) : ∀ l ∈ splitLinesRN s, '\n' ∉ l := by
  induction s using splitLinesRN.induct with
  | case1 => simp [splitLinesRN]
  | case2 r ih =>
    simp only [splitLinesRN]
    intro l hl
    rcases List.mem_cons.mp hl with h1 | h1
    · subst h1; simp
    · exact ih l h1
  | case3 r h ih =>
    rw [splitLinesRN.eq_3 _ _ h]
    simp only [if_pos rfl]
    intro l hl
    rcases List.mem_cons.mp hl with h1 | h1
    · subst h1; simp
    · exact ih l h1
  | case4 c r h hc hnil ih =>
    rw [splitLinesRN.eq_3 _ _ h]
    simp only [if_neg hc, hnil]
    intro l hl
    rcases List.mem_cons.mp hl with h1 | h1
    · subst h1
      intro hm
      rcases List.mem_cons.mp hm with h2 | h2
      · exact hc h2.symm
      · simp at h2
    · simp at h1
  | case5 c r h hc l ls hcons ih =>
    rw [splitLinesRN.eq_3 _ _ h]
    simp only [if_neg hc, hcons]
    intro x hx
    rcases List.mem_cons.mp hx with h1 | h1
    · subst h1
      intro hm
      rcases List.mem_cons.mp hm with h2 | h2
      · exact hc h2.symm
      · exact ih l (by rw [hcons]; exact List.mem_cons_self l ls) h2
    · exact ih x (by rw [hcons]; exact List.mem_cons_of_mem l h1)

theorem splitLinesRN_eq_splitOnChar (s : Str) (h : '\r' ∉ s) :
    splitLinesRN s = splitOnChar '\n' s := by
  induction s using splitLinesRN.induct with
  | case1 => simp [splitLinesRN, splitOnChar]
  | case2 r ih => simp at h
  | case3 r hg ih =>
    rw [splitLinesRN.eq_3 _ _ hg]
    have hr : '\r' ∉ r := fun hm => h (List.mem_cons_of_mem _ hm)
    simp only [if_pos rfl, splitOnChar, ih hr]
  | case4 c r hg hc hnil ih =>
    rw [splitLinesRN.eq_3 _ _ hg]
    have hr : '\r' ∉ r := fun hm => h (List.mem_cons_of_mem _ hm)
    rw [if_neg hc]
    simp only [splitOnChar, if_neg hc, hnil, ← ih hr, hnil]
  | case5 c r hg hc l ls hcons ih =>
    rw [splitLinesRN.eq_3 _ _ hg]
    have hr : '\r' ∉ r := fun hm => h (List.mem_cons_of_mem _ hm)
    rw [if_neg hc]
    simp only [splitOnChar, if_neg hc, hcons, ← ih hr, hcons]

theorem mem_escapeForTemplate (s : Str) (c : Char) (h : c ∈ escapeForTemplate s) :
    c ∈ s ∨ c = '\\' := by
  induction s using escOne.induct with
  | case1 => simp [escapeForTemplate, escapeBackslash, escapeBacktick, escapeDollarBrace] at h
  | case2 r ih =>
    rw [escapeForTemplate_bs] at h
    rcases List.mem_cons.mp h with h1 | h1
    · exact Or.inr h1
    · rcases List.mem_cons.mp h1 with h2 | h2
      · exact Or.inr h2
      · rcases ih h2 with h3 | h3
        · exact Or.inl (List.mem_cons_of_mem _ h3)
        · exact Or.inr h3
  | case3 r ih =>
    rw [escapeForTemplate_bt] at h
    rcases List.mem_cons.mp h with h1 | h1
    · exact Or.inr h1
    · rcases List.mem_cons.mp h1 with h2 | h2
      · exact Or.inl (by simp [h2])
      · rcases ih h2 with h3 | h3
        · exact Or.inl (List.mem_cons_of_mem _ h3)
        · exact Or.inr h3
  | case4 r ih =>
    rw [escapeForTemplate_db] at h
    rcases List.mem_cons.mp h with h1 | h1
    · exact Or.inr h1
    · rcases List.mem_cons.mp h1 with h2 | h2
      · exact Or.inl (by simp [h2])
      · rcases List.mem_cons.mp h2 with h3 | h3
        · exact Or.inl (by simp [h3])
        · rcases ih h3 with h4 | h4
          · exact Or.inl (List.mem_cons_of_mem _ (List.mem_cons_of_mem _ h4))
          · exact Or.inr h4
  | case5 a r h1 h2 h3 ih =>
    have hbs : a ≠ '\\' := fun he => h1 he
    have hbt : a ≠ '\x60' := fun he => h2 he
    have hdb : ¬(a = '$' ∧ r.head? = some '\x7b') := by
      rintro ⟨rfl, hh⟩
      match r, hh with
      | y :: r', hh =>
        simp at hh
        exact h3 r' rfl (by rw [hh])
    rw [escapeForTemplate_other a r hbs hbt hdb] at h
    rcases List.mem_cons.mp h with hh | hh
    · exact Or.inl (by simp [hh])
    · rcases ih hh with h4 | h4
      · exact Or.inl (List.mem_cons_of_mem _ h4)
      · exact Or.inr h4

theorem repeatStr_two_space (i : Nat) :
    repeatStr "  ".data i = List.replicate (2 * i) ' ' := by
  induction i with
  | zero => simp [repeatStr]
  | succ n ih =>
    have : repeatStr "  ".data (n + 1) = "  ".data ++ repeatStr "  ".data n := by
      simp [repeatStr, List.replicate_succ]
    rw [this, ih]
    have h2 : "  ".data = List.replicate 2 ' ' := by decide
    rw [h2, ← List.replicate_add]
    congr 1
    omega

theorem mapLast_ne_nil (f : Str → Str) (x : Str) (xs : List Str) :
    mapLast f (x :: xs) ≠ [] := by
  cases xs <;> simp [mapLast]

theorem mem_mapLast (f : Str → Str) (ls : List Str) (x : Str) (h : x ∈ mapLast f ls) :
    x ∈ ls ∨ ∃ y ∈ ls, x = f y := by
  induction ls with
  | nil => simp [mapLast] at h
  | cons a as ih =>
    cases as with
    | nil =>
      simp [mapLast] at h
      exact Or.inr ⟨a, by simp, h⟩
    | cons b bs =>
      have hm : mapLast f (a :: b :: bs) = a :: mapLast f (b :: bs) := by
        simp [mapLast]
      rw [hm] at h
      rcases List.mem_cons.mp h with h1 | h1
      · exact Or.inl (by simp [h1])
      · rcases ih h1 with h2 | h2
        · exact Or.inl (List.mem_cons_of_mem a h2)
        · obtain ⟨y, hy, hxy⟩ := h2
          exact Or.inr ⟨y, List.mem_cons_of_mem a hy, hxy⟩

/-- Structure of the multi-line branch of `formatStringValue`: the first escaped line is
prefixed by the opening backtick, the other lines by the continuation indent, the lines
are joined with a newline and the closing backtick is appended. -/
theorem formatStringValue_multiline (s : Str) (i : Nat)
    (h : (s.contains '\n' || s.contains '\r') = true) :
    ∃ l0 rest, splitLinesRN (escapeForTemplate s) = l0 :: rest ∧
      formatStringValue s i =
        joinSep "\n".data
          ((backtick :: l0)
            :: rest.map (fun l => (repeatStr "  ".data i ++ "   ".data) ++ l))
          ++ [backtick] := by
  cases hsp : splitLinesRN (escapeForTemplate s) with
  | nil => exact absurd hsp (splitLinesRN_ne_nil _)
  | cons l0 rest =>
    refine ⟨l0, rest, rfl, ?_⟩
    simp only [formatStringValue, h, if_pos, hsp]

/-- Claim C4: a multi-line string value sitting at indent level `i` is rendered by the
pretty-printer with string-formatter indent `i + 1`, and each continuation line (every
line after the first) of its rendering carries a prefix of exactly `2*(i+1) + 3`
spaces - `i + 1` indent levels of two spaces plus the fixed 3-space offset - followed
by the corresponding escaped line of the string (the last one also carrying the closing
backtick). -/
theorem formatStringValue_continuation_indent (s : Str) (i : Nat)
    (h : s.contains '\n' = true ∨ s.contains '\r' = true) :
    splitOnChar '\n' (formatJsonWithUnquotedKeys (.str s) (i + 1)) =
      mapLast (· ++ [backtick])
        ((backtick :: (splitLinesRN (escapeForTemplate s)).headD [])
          :: (splitLinesRN (escapeForTemplate s)).tail.map
              (fun l => List.replicate (2 * (i + 1) + 3) ' ' ++ l)) := by
  have hb : (s.contains '\n' || s.contains '\r') = true := by
    rcases h with h | h
    · rw [h, Bool.true_or]
    · rw [h, Bool.or_true]
  have hfmt : formatJsonWithUnquotedKeys (.str s) (i + 1) = formatStringValue s (i + 1) := by
    simp [formatJsonWithUnquotedKeys]
  obtain ⟨l0, rest, hsp, hout⟩ := formatStringValue_multiline s (i + 1) hb
  have hcont : repeatStr "  ".data (i + 1) ++ "   ".data
      = List.replicate (2 * (i + 1) + 3) ' ' := by
    rw [repeatStr_two_space]
    have h3 : "   ".data = List.replicate 3 ' ' := by decide
    rw [h3, ← List.replicate_add]
  rw [hfmt, hout, hsp]
  simp only [List.headD, List.tail, hcont]
  rw [joinSep_append_right ['\n'] [backtick] _ (by simp)]
  apply splitOnChar_joinSep
  · apply mapLast_ne_nil
  · intro l hl
    have hlines : ∀ x ∈ (backtick :: l0)
        :: rest.map (fun l => List.replicate (2 * (i + 1) + 3) ' ' ++ l), '\n' ∉ x := by
      intro x hx
      rcases List.mem_cons.mp hx with h1 | h1
      · subst h1
        intro hm
        rcases List.mem_cons.mp hm with h2 | h2
        · exact absurd h2.symm (by decide)
        · exact not_mem_nl_splitLinesRN _ l0 (by rw [hsp]; exact List.mem_cons_self _ _) h2
      · obtain ⟨y, hy, rfl⟩ := List.mem_map.mp h1
        intro hm
        rcases List.mem_append.mp hm with h2 | h2
        · exact absurd (List.eq_of_mem_replicate h2) (by decide)
        · exact not_mem_nl_splitLinesRN _ y
            (by rw [hsp]; exact List.mem_cons_of_mem _ hy) h2
    rcases mem_mapLast _ _ _ hl with h1 | h1
    · exact hlines l h1
    · obtain ⟨y, hy, rfl⟩ := h1
      intro hm
      rcases List.mem_append.mp hm with h2 | h2
      · exact hlines y hy h2
      · exact absurd (List.mem_singleton.mp h2).symm (by decide)

/-- Witness for C4 at the two-line string `x\ny` inside a container at indent level 0:
the single continuation line carries exactly `2*(0+1) + 3 = 5` spaces. -/
theorem formatStringValue_continuation_indent_witness :
    splitOnChar '\n' (formatJsonWithUnquotedKeys (.str "x\ny".data) (0 + 1)) =
      mapLast (· ++ [backtick])
        ((backtick :: (splitLinesRN (escapeForTemplate "x\ny".data)).headD [])
          :: (splitLinesRN (escapeForTemplate "x\ny".data)).tail.map
              (fun l => List.replicate (2 * (0 + 1) + 3) ' ' ++ l)) :=
  formatStringValue_continuation_indent "x\ny".data 0 (Or.inl (by decide))

/-- Modelled from the spec: the full decoder for a rendered block string - strip the
opening and closing backtick, undo the continuation re-indentation (drop the
`2*indent + 3` inserted spaces after each newline) and reverse the escape rules.  The
source has no decoder; this is the claim's reverse transformation made explicit. -/
def decodeBlockString (formatted : Str) (indent : Nat) : Str :=
  let inner := (formatted.drop 1).dropLast
  match splitOnChar '\n' inner with
  | [] => unescapeTemplate inner
  | l0 :: rest =>
    unescapeTemplate
      (joinSep "\n".data (l0 :: rest.map (fun l => l.drop (2 * indent + 3))))

/-- Modelled from the claim's words: un-escape only, reversing the three documented
escape rules after stripping the two block delimiters, with no treatment of the
inserted continuation indentation. -/
def unescapeOnlyDecode (formatted : Str) : Str :=
  unescapeTemplate ((formatted.drop 1).dropLast)

/-- Claim C8 counterexample: for the multi-line string `` a`b\nc `` (which contains the
block-string delimiter), formatting and then merely reversing the escape rules does not
reproduce the original - the continuation line keeps the three inserted indent
spaces. -/
theorem unescapeOnly_decode_not_inverse :
    unescapeOnlyDecode (formatJsonWithUnquotedKeys (.str "a`b\nc".data) 0)
      ≠ "a`b\nc".data := by
  decide

/-- Claim C8 as amended: for every string that contains a newline and no carriage
return, stripping the delimiters, undoing the inserted continuation indentation and
reversing the three documented escape rules reproduces the original string exactly
(with a carriage return, the formatter's `\r\n` normalization loses information; and
without undoing the indentation the inserted spaces remain, see the counterexample). -/
theorem decodeBlockString_roundTrip (s : Str) (i : Nat)
    (hn : '\n' ∈ s) (hr : '\r' ∉ s) :
    decodeBlockString (formatJsonWithUnquotedKeys (.str s) i) i = s := by
  have hb : (s.contains '\n' || s.contains '\r') = true := by
    show (List.elem '\n' s || List.elem '\r' s) = true
    rw [List.elem_eq_true_of_mem hn, Bool.true_or]
  have hfmt : formatJsonWithUnquotedKeys (.str s) i = formatStringValue s i := by
    simp [formatJsonWithUnquotedKeys]
  obtain ⟨l0, rest, hsp, hout⟩ := formatStringValue_multiline s i hb
  have hresc : '\r' ∉ escapeForTemplate s := by
    intro hm
    rcases mem_escapeForTemplate _ _ hm with h1 | h1
    · exact hr h1
    · exact absurd h1 (by decide)
  have hsplit : splitLinesRN (escapeForTemplate s) = splitOnChar '\n' (escapeForTemplate s) :=
    splitLinesRN_eq_splitOnChar _ hresc
  have hnl : ∀ l ∈ l0 :: rest, '\n' ∉ l := by
    intro l hl
    exact not_mem_nl_splitLinesRN _ l (by rw [hsp]; exact hl)
  have hcont : repeatStr "  ".data i ++ "   ".data = List.replicate (2 * i + 3) ' ' := by
    rw [repeatStr_two_space]
    have h3 : "   ".data = List.replicate 3 ' ' := by decide
    rw [h3, ← List.replicate_add]
  -- shape of the formatted text
  have hhead : formatJsonWithUnquotedKeys (.str s) i
      = backtick ::
          (joinSep "\n".data
            (l0 :: rest.map (fun l => List.replicate (2 * i + 3) ' ' ++ l))
            ++ [backtick]) := by
    rw [hfmt, hout, hcont]
    rw [joinSep_cons_head]
    simp
  rw [hhead]
  -- strip the delimiters
  have hinner : ((backtick ::
      (joinSep "\n".data (l0 :: rest.map (fun l => List.replicate (2 * i + 3) ' ' ++ l))
        ++ [backtick])).drop 1).dropLast
      = joinSep "\n".data (l0 :: rest.map (fun l => List.replicate (2 * i + 3) ' ' ++ l)) := by
    simp
  have hnlc : ∀ l ∈ l0 :: rest.map (fun l => List.replicate (2 * i + 3) ' ' ++ l),
      '\n' ∉ l := by
    intro l hl
    rcases List.mem_cons.mp hl with h1 | h1
    · rw [h1]; exact hnl l0 (List.mem_cons_self _ _)
    · obtain ⟨y, hy, rfl⟩ := List.mem_map.mp h1
      intro hm
      rcases List.mem_append.mp hm with h2 | h2
      · exact absurd (List.eq_of_mem_replicate h2) (by decide)
      · exact hnl y (List.mem_cons_of_mem _ hy) h2
  have hsplit2 : splitOnChar '\n'
      (joinSep "\n".data (l0 :: rest.map (fun l => List.replicate (2 * i + 3) ' ' ++ l)))
      = l0 :: rest.map (fun l => List.replicate (2 * i + 3) ' ' ++ l) := by
    rw [show ("\n".data : Str) = ['\n'] from rfl]
    exact splitOnChar_joinSep '\n' _ (by simp) hnlc
  rw [decodeBlockString]
  simp only [hinner, hsplit2]
  have hdrop : (rest.map (fun l => List.replicate (2 * i + 3) ' ' ++ l)).map
      (fun l => l.drop (2 * i + 3)) = rest := by
    rw [List.map_map]
    have : ((fun l : Str => l.drop (2 * i + 3)) ∘ fun l => List.replicate (2 * i + 3) ' ' ++ l)
        = fun l : Str => l := by
      funext l
      simp [Function.comp]
    rw [this]
    simp
  rw [hdrop]
  have hjoin : joinSep "\n".data (l0 :: rest) = escapeForTemplate s := by
    have hs2 : splitOnChar '\n' (escapeForTemplate s) = l0 :: rest := by
      rw [← hsplit, hsp]
    rw [show ("\n".data : Str) = ['\n'] from rfl, ← hs2]
    exact joinSep_splitOnChar '\n' _
  rw [hjoin]
  exact unescapeTemplate_escapeForTemplate s

/-- Witness for the amended C8 at the concrete string `x\ny` and indent 2. -/
theorem decodeBlockString_roundTrip_witness :
    decodeBlockString (formatJsonWithUnquotedKeys (.str "x\ny".data) 2) 2 = "x\ny".data :=
  decodeBlockString_roundTrip "x\ny".data 2 (by decide) (by decide)

/-- The string `seg` occurs contiguously inside `w`. -/
def occursIn (seg w : Str) : Prop := ∃ p q, w = p ++ seg ++ q

theorem formatFields_append (A B : List (Str × JValue)) (i : Nat) :
    formatFields (A ++ B) i = formatFields A i ++ formatFields B i := by
  induction A with
  | nil => simp [formatFields]
  | cons kv A ih =>
    cases kv
    simp only [List.cons_append, formatFields, List.append_eq]
    rw [ih]

theorem joinSep_cons_ex (sep x : Str) (xs : List Str) :
    ∃ t, joinSep sep (x :: xs) = x ++ t := by
  cases xs with
  | nil => exact ⟨[], by simp [joinSep]⟩
  | cons y ys => exact ⟨sep ++ joinSep sep (y :: ys), by simp [joinSep, List.append_assoc]⟩

theorem joinSep_append_of_ne_nil (sep : Str) (X Y : List Str) (hX : X ≠ []) (hY : Y ≠ []) :
    joinSep sep (X ++ Y) = joinSep sep X ++ sep ++ joinSep sep Y := by
  induction X with
  | nil => exact absurd rfl hX
  | cons x xs ih =>
    cases xs with
    | nil =>
      cases Y with
      | nil => exact absurd rfl hY
      | cons y ys => simp [joinSep]
    | cons x2 xs2 =>
      have h1 : joinSep sep ((x :: x2 :: xs2) ++ Y)
          = x ++ sep ++ joinSep sep ((x2 :: xs2) ++ Y) := by
        simp [joinSep]
      have h2 : joinSep sep (x :: x2 :: xs2) = x ++ sep ++ joinSep sep (x2 :: xs2) := by
        simp [joinSep]
      rw [h1, ih (by simp), h2]
      simp [List.append_assoc]

/-- Claim C9: the pretty-printer emits every key of a non-empty object verbatim and
unquoted - the rendered text contains, right after a newline, exactly
`2*(i+1)` spaces (one indent level deeper than the enclosing brace line at level `i`),
then the raw key with no quoting, escaping or validation, then `: `, then the rendered
value. -/
theorem formatJson_keys_verbatim (fields : List (Str × JValue)) (i : Nat)
    (k : Str) (v : JValue) (hmem : (k, v) ∈ fields) :
    occursIn
      ('\n' :: (List.replicate (2 * (i + 1)) ' '
        ++ (k ++ ':' :: ' ' :: formatJsonWithUnquotedKeys v (i + 1))))
      (formatJsonWithUnquotedKeys (.obj fields) i) := by
  obtain ⟨A, B, hAB⟩ := List.append_of_mem hmem
  subst hAB
  have hne : (A ++ (k, v) :: B).isEmpty = false := by
    cases A <;> simp
  have hobj : formatJsonWithUnquotedKeys (.obj (A ++ (k, v) :: B)) i
      = '\x7b' :: '\n' ::
          (joinSep ",\n".data (formatFields (A ++ (k, v) :: B) i)
            ++ '\n' :: (indentStrOf i ++ ['\x7d'])) := by
    simp [formatJsonWithUnquotedKeys, hne]
  have hind : indentStrOf (i + 1) = List.replicate (2 * (i + 1)) ' ' := by
    rw [indentStrOf, repeatStr_two_space]
  have hitem : formatFields ((k, v) :: B) i
      = (List.replicate (2 * (i + 1)) ' '
          ++ (k ++ ':' :: ' ' :: formatJsonWithUnquotedKeys v (i + 1)))
          :: formatFields B i := by
    simp only [formatFields, hind]
  rw [hobj, formatFields_append, hitem]
  obtain ⟨t, ht⟩ := joinSep_cons_ex ",\n".data
    (List.replicate (2 * (i + 1)) ' '
      ++ (k ++ ':' :: ' ' :: formatJsonWithUnquotedKeys v (i + 1)))
    (formatFields B i)
  by_cases hAe : formatFields A i = []
  · rw [hAe]
    refine ⟨['\x7b'], t ++ '\n' :: (indentStrOf i ++ ['\x7d']), ?_⟩
    rw [List.nil_append, ht]
    simp [List.append_assoc]
  · have hjoin : joinSep ",\n".data (formatFields A i
          ++ ((List.replicate (2 * (i + 1)) ' '
            ++ (k ++ ':' :: ' ' :: formatJsonWithUnquotedKeys v (i + 1)))
            :: formatFields B i))
        = joinSep ",\n".data (formatFields A i) ++ ",\n".data
            ++ joinSep ",\n".data
              ((List.replicate (2 * (i + 1)) ' '
                ++ (k ++ ':' :: ' ' :: formatJsonWithUnquotedKeys v (i + 1)))
                :: formatFields B i) :=
      joinSep_append_of_ne_nil _ _ _ hAe (by simp)
    refine ⟨'\x7b' :: '\n' :: (joinSep ",\n".data (formatFields A i) ++ [',']),
      t ++ '\n' :: (indentStrOf i ++ ['\x7d']), ?_⟩
    rw [hjoin, ht]
    rw [show (",\n".data : Str) = [',', '\n'] from rfl]
    simp [List.append_assoc]

/-- Witness for C9 on the one-field object with key `a` and value `null` at indent 0. -/
theorem formatJson_keys_verbatim_witness :
    occursIn
      ('\n' :: (List.replicate (2 * (0 + 1)) ' '
        ++ ("a".data ++ ':' :: ' ' :: formatJsonWithUnquotedKeys .null (0 + 1))))
      (formatJsonWithUnquotedKeys (.obj [("a".data, JValue.null)]) 0) :=
  formatJson_keys_verbatim [("a".data, JValue.null)] 0 "a".data .null
    (List.mem_singleton.mpr rfl)

/-- A delimiter-stack entry `{ line: i + 1, char }` as pushed by the fold provider. -/
structure StackEntry where
  line : Nat
  char : Char
deriving Repr, DecidableEq

/-- A fold range `{ start, end }`; the source field `end` is a Lean keyword and is
rendered here as `stop` (the `kind` field is the constant `FoldingRangeKind.Region` and
carries no information). -/
structure FoldRange where
  start : Nat
  stop : Nat
deriving Repr, DecidableEq

/-- JavaScript `line.trim()`: strip whitespace from both ends. -/
def jsTrim (s : Str) : Str :=
  ((s.dropWhile Char.isWhitespace).reverse.dropWhile Char.isWhitespace).reverse

/-- JavaScript `trimmed.endsWith(c)` for a single character `c`. -/
def endsWithChar (s : Str) (c : Char) : Bool :=
  s.getLast? == some c

/-- The inner loop `for (let j = stack.length - 1; j >= 0; j--) if (stack[j].char ===
expectedOpen) ...` - the fuel argument is `j + 1`, so the search starts at index
`stack.length - 1` and walks downward, returning the first (topmost) matching index. -/
def findOpenIdx (stack : List StackEntry) (expected : Char) : Nat → Option Nat
  | 0 => none
  | j + 1 =>
    match stack.get? j with
    | some e => if e.char = expected then some j else findOpenIdx stack expected j
    | none => findOpenIdx stack expected j

/-- The body of the matching search: find the topmost entry with the expected open
character, return its line and the stack with that entry spliced out
(`stack.splice(j, 1)` is `take j ++ drop (j+1)`). -/
def spliceClose (stack : List StackEntry) (expected : Char) : Option (Nat × List StackEntry) :=
  match findOpenIdx stack expected stack.length with
  | some j =>
    match stack.get? j with
    | some e => some (e.line, stack.take j ++ stack.drop (j + 1))
    | none => none
  | none => none

/-- One iteration of the line loop of `provideFoldingRanges` (monaco-viewer.tsx lines
378-408): trim the line; push `(i+1, openChar)` if the trimmed text ends with a brace
or bracket; if the trimmed text is exactly one of the four closer strings, search the
stack from the top for the expected open character, emit `(startLine, i+1)` when
`i + 1 > startLine`, and splice the matched entry out.  The JavaScript array keeps its
bottom-most entry first; `push` appends at the end. -/
def processLine (ranges : List FoldRange) (stack : List StackEntry) (i : Nat) (line : Str) :
    List FoldRange × List StackEntry :=
  let trimmed := jsTrim line
  let stack1 :=
    if endsWithChar trimmed '\x7b' || endsWithChar trimmed '[' then
      stack ++ [⟨i + 1, if endsWithChar trimmed '\x7b' then '\x7b' else '['⟩]
    else stack
  if (trimmed = "\x7d".data ∨ trimmed = "\x7d,".data)
      ∨ (trimmed = "]".data ∨ trimmed = "],".data) then
    let expectedOpen :=
      if trimmed = "\x7d".data ∨ trimmed = "\x7d,".data then '\x7b' else '['
    match spliceClose stack1 expectedOpen with
    | some (startLine, stack2) =>
      (if i + 1 > startLine then ranges ++ [⟨startLine, i + 1⟩] else ranges, stack2)
    | none => (ranges, stack1)
  else (ranges, stack1)

/-- The line loop `for (let i = 0; i < lines.length; i++)`, carrying the accumulated
ranges and the delimiter stack. -/
def scanGo : Nat → List FoldRange → List StackEntry → List Str →
    List FoldRange × List StackEntry
  | _, ranges, stack, [] => (ranges, stack)
  | i, ranges, stack, l :: ls =>
    let rs := processLine ranges stack i l
    scanGo (i + 1) rs.1 rs.2 ls

/-- Translation of the `provideFoldingRanges` callback (monaco-viewer.tsx lines
373-411): scan the lines left to right starting from index 0 with an empty stack and
return the accumulated ranges (the final stack is discarded). -/
def provideFoldingRanges (lines : List Str) : List FoldRange :=
  (scanGo 0 [] [] lines).1

/-- The seven lines of the worked example of spec section 8: the rendering of
`{ a: 1, b: { c: "x\ny" } }`. -/
def specExampleLines : List Str :=
  ["\x7b".data,
   "  a: 1,".data,
   "  b: \x7b".data,
   "    c: \"x".data,
   "       y\"".data,
   "  \x7d".data,
   "\x7d".data]

/-- Claim C5 counterexample: on the spec's seven-line worked example the scanner emits
the ranges (3,6) and (1,7) - the closers of `b`'s object and of the outer object sit on
lines 6 and 7 - and neither (1,6) nor (3,5) is emitted. -/
theorem specExample_foldRanges_not_claimed :
    provideFoldingRanges specExampleLines = [⟨3, 6⟩, ⟨1, 7⟩]
    ∧ FoldRange.mk 1 6 ∉ provideFoldingRanges specExampleLines
    ∧ FoldRange.mk 3 5 ∉ provideFoldingRanges specExampleLines := by
  refine ⟨by decide, by decide, by decide⟩

/-- Claim C5 as amended: running the fold-range scanner over the spec's seven-line
worked example yields exactly two ranges, in emission order: (3,6) for the object under
key `b` (opened on line 3, closed on line 6) and (1,7) for the outer object (opened on
line 1, closed on line 7). -/
theorem specExample_foldRanges :
    provideFoldingRanges specExampleLines = [⟨3, 6⟩, ⟨1, 7⟩] := by
  decide

/-- The open character matched by a closer line, if the trimmed text is exactly one of
the four closer strings (`}`/`},` match `{`, `]`/`],` match `[`). -/
def closerChar (t : Str) : Option Char :=
  if t = "\x7d".data ∨ t = "\x7d,".data then some '\x7b'
  else if t = "]".data ∨ t = "],".data then some '['
  else none

/-- Modelled from the claim's words (C3, spec section 4.4): with the stack kept
most-recent-first, search from the top downward for the most recent entry of the
expected open character and remove it positionally, keeping the entries above and
below it. -/
def removeMostRecent (expected : Char) : List StackEntry → Option (Nat × List StackEntry)
  | [] => none
  | e :: rest =>
    if e.char = expected then some (e.line, rest)
    else
      match removeMostRecent expected rest with
      | some (l, rest') => some (l, e :: rest')
      | none => none

/-- Modelled from the claim's words (C3, spec section 4.4): one step of the single
left-to-right pass - push `(lineNumber, openChar)` when the trimmed text ends with an
opener, and on a closer line remove the most recent matching entry and emit the range
`(openLine, currentLine)` only if `currentLine > openLine`. -/
def scanStep (st : List StackEntry × List FoldRange × Nat) (line : Str) :
    List StackEntry × List FoldRange × Nat :=
  let stack := st.1
  let ranges := st.2.1
  let i := st.2.2
  let trimmed := jsTrim line
  let stack1 :=
    if endsWithChar trimmed '\x7b' then ⟨i + 1, '\x7b'⟩ :: stack
    else if endsWithChar trimmed '[' then ⟨i + 1, '['⟩ :: stack
    else stack
  match closerChar trimmed with
  | some c =>
    match removeMostRecent c stack1 with
    | some (l, stack2) =>
      (stack2, (if i + 1 > l then ranges ++ [⟨l, i + 1⟩] else ranges), i + 1)
    | none => (stack1, ranges, i + 1)
  | none => (stack1, ranges, i + 1)

/-- Modelled from the claim's words (C3, spec section 4.4): the scanner as a single
left-to-right fold over the lines. -/
def computeFoldRanges (lines : List Str) : List FoldRange :=
  (lines.foldl scanStep ([], [], 0)).2.1

/-- Removal of the last matching entry, phrased structurally on the array order
(bottom-most entry first); the bridge between the index-based splice and the
most-recent-first removal. -/
def removeLastMatch (expected : Char) : List StackEntry → Option (Nat × List StackEntry)
  | [] => none
  | e :: rest =>
    match removeLastMatch expected rest with
    | some (l, rest') => some (l, e :: rest')
    | none => if e.char = expected then some (e.line, rest) else none

theorem findOpenIdx_append (stack : List StackEntry) (e : StackEntry) (expected : Char) :
    ∀ n, n ≤ stack.length →
      findOpenIdx (stack ++ [e]) expected n = findOpenIdx stack expected n := by
  intro n
  induction n with
  | zero => intro _; rfl
  | succ j ih =>
    intro h
    have hj : j < stack.length := h
    simp only [findOpenIdx]
    rw [List.get?_append hj]
    cases hg : stack.get? j with
    | none => exact ih (Nat.le_of_lt hj)
    | some e' =>
      dsimp only
      by_cases hch : e'.char = expected
      · simp [hch]
      · rw [if_neg hch, if_neg hch]
        exact ih (Nat.le_of_lt hj)

theorem findOpenIdx_lt (stack : List StackEntry) (expected : Char) :
    ∀ n j, findOpenIdx stack expected n = some j → j < n := by
  intro n
  induction n with
  | zero => intro j h; simp [findOpenIdx] at h
  | succ m ih =>
    intro j h
    simp only [findOpenIdx] at h
    cases hg : stack.get? m with
    | none =>
      rw [hg] at h
      dsimp only at h
      exact Nat.lt_succ_of_lt (ih j h)
    | some e' =>
      rw [hg] at h
      dsimp only at h
      by_cases hch : e'.char = expected
      · rw [if_pos hch] at h
        cases h
        exact Nat.lt_succ_self m
      · rw [if_neg hch] at h
        exact Nat.lt_succ_of_lt (ih j h)

theorem spliceClose_concat (stack : List StackEntry) (e : StackEntry) (c : Char) :
    spliceClose (stack ++ [e]) c
      = if e.char = c then some (e.line, stack)
        else (spliceClose stack c).map (fun p => (p.1, p.2 ++ [e])) := by
  have hlen : (stack ++ [e]).length = stack.length + 1 := by simp
  rw [spliceClose, hlen]
  simp only [findOpenIdx]
  rw [List.get?_concat_length]
  dsimp only
  by_cases hch : e.char = c
  · rw [if_pos hch, if_pos hch]
    dsimp only
    rw [List.get?_concat_length]
    dsimp only
    rw [List.take_left]
    have hd : (stack ++ [e]).drop (stack.length + 1) = [] := by
      rw [← hlen]
      exact List.drop_length _
    rw [hd]
    simp
  · rw [if_neg hch, if_neg hch]
    rw [findOpenIdx_append stack e c stack.length (Nat.le_refl _)]
    cases hf : findOpenIdx stack c stack.length with
    | none => rw [spliceClose, hf]; rfl
    | some j =>
      have hj : j < stack.length := findOpenIdx_lt _ _ _ _ hf
      obtain ⟨e', he'⟩ : ∃ e', stack.get? j = some e' :=
        ⟨stack.get ⟨j, hj⟩, List.get?_eq_get hj⟩
      dsimp only
      rw [List.get?_append hj, he']
      rw [spliceClose, hf]
      dsimp only
      rw [he']
      dsimp only
      rw [List.take_append_of_le_length (Nat.le_of_lt hj),
        List.drop_append_of_le_length hj]
      simp [List.append_assoc]

theorem removeLastMatch_concat (stack : List StackEntry) (e : StackEntry) (c : Char) :
    removeLastMatch c (stack ++ [e])
      = if e.char = c then some (e.line, stack)
        else (removeLastMatch c stack).map (fun p => (p.1, p.2 ++ [e])) := by
  induction stack with
  | nil =>
    simp only [List.nil_append, removeLastMatch]
    by_cases hch : e.char = c <;> simp [hch]
  | cons a rest ih =>
    simp only [List.cons_append, removeLastMatch, List.append_eq]
    rw [ih]
    by_cases hch : e.char = c
    · simp only [if_pos hch]
    · simp only [if_neg hch]
      cases hr : removeLastMatch c rest with
      | none =>
        dsimp only [Option.map_none']
        by_cases hac : a.char = c <;> simp [hac]
      | some p =>
        cases p
        simp

theorem removeMostRecent_concat (xs : List StackEntry) (e : StackEntry) (c : Char) :
    removeMostRecent c (xs ++ [e])
      = match removeMostRecent c xs with
        | some (l, ys) => some (l, ys ++ [e])
        | none => if e.char = c then some (e.line, xs) else none := by
  induction xs with
  | nil =>
    simp only [List.nil_append, removeMostRecent]
  | cons a rest ih =>
    simp only [List.cons_append, removeMostRecent, List.append_eq]
    rw [ih]
    by_cases hac : a.char = c
    · simp [hac]
    · simp only [if_neg hac]
      cases hr : removeMostRecent c rest with
      | none =>
        dsimp only
        by_cases hec : e.char = c <;> simp [hec]
      | some p =>
        cases p
        simp

theorem removeMostRecent_reverse (stack : List StackEntry) (c : Char) :
    removeMostRecent c stack.reverse
      = (removeLastMatch c stack).map (fun p => (p.1, p.2.reverse)) := by
  induction stack with
  | nil => rfl
  | cons a rest ih =>
    rw [List.reverse_cons, removeMostRecent_concat, ih, removeLastMatch]
    cases hr : removeLastMatch c rest with
    | none =>
      dsimp only
      by_cases hac : a.char = c <;> simp [hac]
    | some p =>
      cases p
      simp

theorem spliceClose_eq_removeLastMatch (stack : List StackEntry) (c : Char) :
    spliceClose stack c = removeLastMatch c stack := by
  induction stack using List.reverseRecOn with
  | nil => rfl
  | append_singleton stack e ih =>
    rw [spliceClose_concat, removeLastMatch_concat, ih]

theorem closer_not_ends_open (t : Str)
    (h : (t = "\x7d".data ∨ t = "\x7d,".data) ∨ (t = "]".data ∨ t = "],".data)) :
    endsWithChar t '\x7b' = false ∧ endsWithChar t '[' = false := by
  rcases h with (h | h) | (h | h) <;> subst h <;> exact ⟨by decide, by decide⟩

theorem not_closer_closerChar_none (t : Str)
    (h : ¬((t = "\x7d".data ∨ t = "\x7d,".data) ∨ (t = "]".data ∨ t = "],".data))) :
    closerChar t = none := by
  rw [closerChar, if_neg (fun hh => h (Or.inl hh)), if_neg (fun hh => h (Or.inr hh))]

theorem closerChar_of_brace (t : Str) (h : t = "\x7d".data ∨ t = "\x7d,".data) :
    closerChar t = some '\x7b' := by
  rw [closerChar, if_pos h]

theorem closerChar_of_bracket (t : Str) (h : t = "]".data ∨ t = "],".data) :
    closerChar t = some '[' := by
  have hb : ¬(t = "\x7d".data ∨ t = "\x7d,".data) := by
    rcases h with h | h <;> subst h <;> decide
  rw [closerChar, if_neg hb, if_pos h]

theorem scanStep_processLine (ranges : List FoldRange) (s : List StackEntry) (i : Nat)
    (line : Str) :
    scanStep (s.reverse, ranges, i) line
      = ((processLine ranges s i line).2.reverse, (processLine ranges s i line).1, i + 1) := by
  by_cases hcl : (jsTrim line = "\x7d".data ∨ jsTrim line = "\x7d,".data)
      ∨ (jsTrim line = "]".data ∨ jsTrim line = "],".data)
  · obtain ⟨hno1, hno2⟩ := closer_not_ends_open _ hcl
    by_cases hbr : jsTrim line = "\x7d".data ∨ jsTrim line = "\x7d,".data
    · have hcc : closerChar (jsTrim line) = some '\x7b' := closerChar_of_brace _ hbr
      simp only [scanStep, processLine, hno1, hno2, hcc, if_pos hcl, if_pos hbr,
        Bool.false_or, Bool.or_self, if_neg (by simp : ¬(false = true))]
      rw [removeMostRecent_reverse, ← spliceClose_eq_removeLastMatch]
      cases hs : spliceClose s '\x7b' with
      | none => simp
      | some p =>
        cases p
        simp
    · have hbk : jsTrim line = "]".data ∨ jsTrim line = "],".data := hcl.resolve_left hbr
      have hcc : closerChar (jsTrim line) = some '[' := closerChar_of_bracket _ hbk
      simp only [scanStep, processLine, hno1, hno2, hcc, if_pos hcl, if_neg hbr,
        Bool.false_or, Bool.or_self, if_neg (by simp : ¬(false = true))]
      rw [removeMostRecent_reverse, ← spliceClose_eq_removeLastMatch]
      cases hs : spliceClose s '[' with
      | none => simp
      | some p =>
        cases p
        simp
  · have hcc : closerChar (jsTrim line) = none := not_closer_closerChar_none _ hcl
    simp only [scanStep, processLine, hcc, if_neg hcl]
    by_cases h1 : endsWithChar (jsTrim line) '\x7b' = true
    · simp [h1]
    · by_cases h2 : endsWithChar (jsTrim line) '[' = true
      · simp [h1, h2]
      · simp [h1, h2]

theorem scanGo_eq_foldl (lines : List Str) : ∀ (ranges : List FoldRange)
    (s : List StackEntry) (i : Nat),
    lines.foldl scanStep (s.reverse, ranges, i)
      = ((scanGo i ranges s lines).2.reverse, (scanGo i ranges s lines).1,
          i + lines.length) := by
  induction lines with
  | nil =>
    intro ranges s i
    simp [scanGo]
  | cons l ls ih =>
    intro ranges s i
    rw [List.foldl_cons, scanStep_processLine]
    have hgo : scanGo i ranges s (l :: ls)
        = scanGo (i + 1) (processLine ranges s i l).1 (processLine ranges s i l).2 ls := by
      rw [scanGo]
    rw [hgo, ih]
    have harith : i + 1 + ls.length = i + (ls.length + 1) := by omega
    rw [harith]
    rfl

/-- The index-and-splice scanner of the source and the most-recent-first scanner of the
claim compute the same ranges on every input. -/
theorem provide_eq_compute (lines : List Str) :
    provideFoldingRanges lines = computeFoldRanges lines := by
  have h := scanGo_eq_foldl lines [] [] 0
  rw [computeFoldRanges, show ([] : List StackEntry) = ([] : List StackEntry).reverse from rfl,
    h]
  rfl

/-- Claim C3: the fold-range scanner is a single left-to-right pass that pushes
`(lineNumber, openChar)` for a trimmed line ending in `{` or `[`, and on a closer line
(`}`, `},`, `]` or `],`) removes the most recent stack entry of the matching open
character positionally - entries above and below stay - emitting `(openLine,
currentLine)` only when `currentLine > openLine`: the source's index-based
splice scanner equals this specification scanner on every input. -/
theorem provideFoldingRanges_refines_spec (lines : List Str) :
    provideFoldingRanges lines = computeFoldRanges lines :=
  provide_eq_compute lines

/-- A fold range together with the delimiter class (`{` or `[`) whose closer emitted
it; a verification-only instrumentation of the scanner. -/
structure TRange where
  start : Nat
  stop : Nat
  ch : Char
deriving Repr, DecidableEq

/-- Forget the delimiter class of an instrumented range. -/
def eraseTag (t : TRange) : FoldRange := ⟨t.start, t.stop⟩

/-- The scanner step instrumented with the delimiter class of each emitted range. -/
def scanStepT (st : List StackEntry × List TRange × Nat) (line : Str) :
    List StackEntry × List TRange × Nat :=
  let stack := st.1
  let ranges := st.2.1
  let i := st.2.2
  let trimmed := jsTrim line
  let stack1 :=
    if endsWithChar trimmed '\x7b' then ⟨i + 1, '\x7b'⟩ :: stack
    else if endsWithChar trimmed '[' then ⟨i + 1, '['⟩ :: stack
    else stack
  match closerChar trimmed with
  | some c =>
    match removeMostRecent c stack1 with
    | some (l, stack2) =>
      (stack2, (if i + 1 > l then ranges ++ [⟨l, i + 1, c⟩] else ranges), i + 1)
    | none => (stack1, ranges, i + 1)
  | none => (stack1, ranges, i + 1)

/-- The instrumented scanner over a whole line sequence. -/
def scanTagged (lines : List Str) : List TRange :=
  (lines.foldl scanStepT ([], [], 0)).2.1

theorem scanStepT_erase (s : List StackEntry) (rs : List TRange) (i : Nat) (line : Str) :
    scanStep (s, rs.map eraseTag, i) line
      = ((scanStepT (s, rs, i) line).1, (scanStepT (s, rs, i) line).2.1.map eraseTag,
          (scanStepT (s, rs, i) line).2.2) := by
  simp only [scanStep, scanStepT]
  split
  · split
    · rename_i l stack2 heq
      by_cases hg : i + 1 > l
      · simp [hg, eraseTag]
      · simp [hg]
    · rfl
  · rfl

theorem foldl_scanStepT_erase (lines : List Str) : ∀ (s : List StackEntry)
    (rs : List TRange) (i : Nat),
    lines.foldl scanStep (s, rs.map eraseTag, i)
      = ((lines.foldl scanStepT (s, rs, i)).1,
          (lines.foldl scanStepT (s, rs, i)).2.1.map eraseTag,
          (lines.foldl scanStepT (s, rs, i)).2.2) := by
  induction lines with
  | nil => intro s rs i; rfl
  | cons l ls ih =>
    intro s rs i
    rw [List.foldl_cons, scanStepT_erase, List.foldl_cons]
    rw [ih (scanStepT (s, rs, i) l).1 (scanStepT (s, rs, i) l).2.1
      (scanStepT (s, rs, i) l).2.2]

/-- The plain scanner is the tag-erasure of the instrumented scanner. -/
theorem compute_eq_scanTagged (lines : List Str) :
    computeFoldRanges lines = (scanTagged lines).map eraseTag := by
  have h := foldl_scanStepT_erase lines [] [] 0
  rw [computeFoldRanges,
    show (([], [], 0) : List StackEntry × List FoldRange × Nat)
      = (([] : List StackEntry), ([] : List TRange).map eraseTag, 0) from rfl, h]
  rfl

/-- Two ranges are disjoint or one contains the other (no partial overlap). -/
def nestedOrDisjoint (a b : FoldRange) : Prop :=
  a.stop < b.start ∨ b.stop < a.start
    ∨ (a.start ≤ b.start ∧ b.stop ≤ a.stop) ∨ (b.start ≤ a.start ∧ a.stop ≤ b.stop)

/-- The running invariant of the instrumented scanner: stack lines are bounded by the
line counter and strictly decrease from the top; emitted ranges are ordered by closing
line, start before they stop, never enclose a live same-class stack entry, and are
pairwise well-nested within each delimiter class. -/
def ScanInv (st : List StackEntry × List TRange × Nat) : Prop :=
  (∀ e ∈ st.1, e.line ≤ st.2.2)
  ∧ List.Pairwise (fun a b => b.line < a.line) st.1
  ∧ (∀ r ∈ st.2.1, r.start < r.stop ∧ r.stop ≤ st.2.2)
  ∧ List.Pairwise (fun a b => a.stop < b.stop) st.2.1
  ∧ (∀ r ∈ st.2.1, ∀ e ∈ st.1, e.char = r.ch → e.line < r.start ∨ r.stop < e.line)
  ∧ (∀ r1 ∈ st.2.1, ∀ r2 ∈ st.2.1, r1.ch = r2.ch
      → nestedOrDisjoint (eraseTag r1) (eraseTag r2))

theorem removeMostRecent_split (c : Char) (s : List StackEntry) (l : Nat)
    (s' : List StackEntry) (h : removeMostRecent c s = some (l, s')) :
    ∃ u e v, s = u ++ e :: v ∧ s' = u ++ v ∧ e.char = c ∧ e.line = l
      ∧ ∀ x ∈ u, x.char ≠ c := by
  induction s generalizing l s' with
  | nil => simp [removeMostRecent] at h
  | cons e0 rest ih =>
    rw [removeMostRecent] at h
    by_cases hch : e0.char = c
    · rw [if_pos hch] at h
      obtain ⟨h1, h2⟩ := Prod.mk.injEq .. ▸ Option.some.inj h
      exact ⟨[], e0, rest, by simp, by simp [h2.symm], hch, h1, by simp⟩
    · rw [if_neg hch] at h
      cases hr : removeMostRecent c rest with
      | none => rw [hr] at h; simp at h
      | some p =>
        cases p with
        | mk l1 rest' =>
          rw [hr] at h
          dsimp only at h
          obtain ⟨h1, h2⟩ := Prod.mk.injEq .. ▸ Option.some.inj h
          obtain ⟨u, e, v, hs, hs', hec, hel, hu⟩ := ih l1 rest' hr
          refine ⟨e0 :: u, e, v, by rw [hs]; rfl, ?_, hec, by rw [hel, h1], ?_⟩
          · rw [← h2, hs']
            rfl
          · intro x hx
            rcases List.mem_cons.mp hx with h3 | h3
            · rw [h3]; exact hch
            · exact hu x h3

theorem scanStepT_inv (stack : List StackEntry) (ranges : List TRange) (i : Nat)
    (line : Str) (h : ScanInv (stack, ranges, i)) :
    ScanInv (scanStepT (stack, ranges, i) line) := by
  obtain ⟨hA, hB, hC, hD, hE, hF⟩ := h
  have main : ∀ s1 : List StackEntry,
      (∀ e ∈ s1, e.line ≤ i + 1) →
      List.Pairwise (fun a b => b.line < a.line) s1 →
      (∀ r ∈ ranges, ∀ e ∈ s1, e.char = r.ch → e.line < r.start ∨ r.stop < e.line) →
      ScanInv
        (match closerChar (jsTrim line) with
          | some c =>
            match removeMostRecent c s1 with
            | some (l, stack2) =>
              (stack2, (if i + 1 > l then ranges ++ [⟨l, i + 1, c⟩] else ranges), i + 1)
            | none => (s1, ranges, i + 1)
          | none => (s1, ranges, i + 1)) := by
    intro s1 hA1 hB1 hE1
    have hCw : ∀ r ∈ ranges, r.start < r.stop ∧ r.stop ≤ i + 1 :=
      fun r hr => ⟨(hC r hr).1, Nat.le_succ_of_le (hC r hr).2⟩
    cases hcc : closerChar (jsTrim line) with
    | none =>
      dsimp only
      exact ⟨hA1, hB1, hCw, hD, hE1, hF⟩
    | some c =>
      dsimp only
      cases hrm : removeMostRecent c s1 with
      | none =>
        dsimp only
        exact ⟨hA1, hB1, hCw, hD, hE1, hF⟩
      | some p =>
        obtain ⟨l, stack2⟩ := p
        obtain ⟨u, e, v, hsplit, hs2, hechar, heline, hufree⟩ :=
          removeMostRecent_split c s1 l stack2 hrm
        have hsub : ∀ x ∈ stack2, x ∈ s1 := by
          rw [hs2, hsplit]
          intro x hx
          rcases List.mem_append.mp hx with h1 | h1
          · exact List.mem_append.mpr (Or.inl h1)
          · exact List.mem_append.mpr (Or.inr (List.mem_cons_of_mem e h1))
        have heS1 : e ∈ s1 := by
          rw [hsplit]
          exact List.mem_append.mpr (Or.inr (List.mem_cons_self _ _))
        have hsubl : List.Sublist stack2 s1 := by
          rw [hs2, hsplit]
          exact List.Sublist.append_left (List.sublist_cons_self e v) u
        have hvlt : ∀ x ∈ v, x.line < l := by
          intro x hx
          have hp : List.Pairwise (fun a b => b.line < a.line) (u ++ e :: v) :=
            hsplit ▸ hB1
          have hev := (List.pairwise_append.mp hp).2.1
          have := (List.pairwise_cons.mp hev).1 x hx
          rw [heline] at this
          exact this
        have hA2 : ∀ x ∈ stack2, x.line ≤ i + 1 := fun x hx => hA1 x (hsub x hx)
        have hB2 : List.Pairwise (fun a b => b.line < a.line) stack2 := hB1.sublist hsubl
        have hE2old : ∀ r ∈ ranges, ∀ x ∈ stack2, x.char = r.ch
            → x.line < r.start ∨ r.stop < x.line :=
          fun r hr x hx => hE1 r hr x (hsub x hx)
        by_cases hg : i + 1 > l
        · dsimp only
          rw [if_pos hg]
          refine ⟨hA2, hB2, ?_, ?_, ?_, ?_⟩
          · intro r hr
            rcases List.mem_append.mp hr with h1 | h1
            · exact hCw r h1
            · rw [List.mem_singleton.mp h1]
              exact ⟨hg, Nat.le_refl _⟩
          · refine List.pairwise_append.mpr ⟨hD, List.pairwise_singleton _ _, ?_⟩
            intro r hr r' hr'
            rw [List.mem_singleton.mp hr']
            exact Nat.lt_succ_of_le (hC r hr).2
          · intro r hr x hx hxc
            rcases List.mem_append.mp hr with h1 | h1
            · exact hE2old r h1 x hx hxc
            · rw [List.mem_singleton.mp h1] at hxc ⊢
              left
              have hxuv : x ∈ u ++ v := hs2 ▸ hx
              rcases List.mem_append.mp hxuv with h2 | h2
              · exact absurd hxc (hufree x h2)
              · exact hvlt x h2
          · intro r1 hr1 r2 hr2 hch
            have hnew : ∀ r ∈ ranges, r.ch = c →
                nestedOrDisjoint (eraseTag r) (eraseTag ⟨l, i + 1, c⟩)
                ∧ nestedOrDisjoint (eraseTag ⟨l, i + 1, c⟩) (eraseTag r) := by
              intro r hr hrc
              have := hE1 r hr e heS1 (hechar.trans hrc.symm)
              rw [heline] at this
              rcases this with hlt | hlt
              · have h1 : l ≤ r.start := Nat.le_of_lt hlt
                have h2 : r.stop ≤ i + 1 := Nat.le_succ_of_le (hC r hr).2
                constructor
                · exact Or.inr (Or.inr (Or.inr ⟨h1, h2⟩))
                · exact Or.inr (Or.inr (Or.inl ⟨h1, h2⟩))
              · constructor
                · exact Or.inl hlt
                · exact Or.inr (Or.inl hlt)
            rcases List.mem_append.mp hr1 with h1 | h1
            · rcases List.mem_append.mp hr2 with h2 | h2
              · exact hF r1 h1 r2 h2 hch
              · rw [List.mem_singleton.mp h2]
                rw [List.mem_singleton.mp h2] at hch
                exact (hnew r1 h1 hch).1
            · rcases List.mem_append.mp hr2 with h2 | h2
              · rw [List.mem_singleton.mp h1]
                rw [List.mem_singleton.mp h1] at hch
                exact (hnew r2 h2 hch.symm).2
              · rw [List.mem_singleton.mp h1, List.mem_singleton.mp h2]
                exact Or.inr (Or.inr (Or.inl ⟨Nat.le_refl _, Nat.le_refl _⟩))
        · dsimp only
          rw [if_neg hg]
          exact ⟨hA2, hB2, hCw, hD, hE2old, hF⟩
  have hpush : ∀ ch : Char,
      (∀ e ∈ StackEntry.mk (i + 1) ch :: stack, e.line ≤ i + 1)
      ∧ List.Pairwise (fun a b => b.line < a.line) (StackEntry.mk (i + 1) ch :: stack)
      ∧ (∀ r ∈ ranges, ∀ e ∈ StackEntry.mk (i + 1) ch :: stack, e.char = r.ch
          → e.line < r.start ∨ r.stop < e.line) := by
    intro ch
    refine ⟨?_, ?_, ?_⟩
    · intro e he
      rcases List.mem_cons.mp he with rfl | he'
      · exact Nat.le_refl _
      · exact Nat.le_succ_of_le (hA e he')
    · refine List.pairwise_cons.mpr ⟨?_, hB⟩
      intro b hb
      exact Nat.lt_succ_of_le (hA b hb)
    · intro r hr e he
      rcases List.mem_cons.mp he with rfl | he'
      · intro _
        exact Or.inr (Nat.lt_succ_of_le (hC r hr).2)
      · exact hE r hr e he'
  have hbase : (∀ e ∈ stack, e.line ≤ i + 1)
      ∧ (∀ r ∈ ranges, ∀ e ∈ stack, e.char = r.ch → e.line < r.start ∨ r.stop < e.line) :=
    ⟨fun e he => Nat.le_succ_of_le (hA e he), hE⟩
  by_cases h1 : endsWithChar (jsTrim line) '\x7b' = true
  · have hp := hpush '\x7b'
    have := main (StackEntry.mk (i + 1) '\x7b' :: stack) hp.1 hp.2.1 hp.2.2
    simp only [scanStepT, h1, if_pos]
    exact this
  · by_cases h2 : endsWithChar (jsTrim line) '[' = true
    · have hp := hpush '['
      have := main (StackEntry.mk (i + 1) '[' :: stack) hp.1 hp.2.1 hp.2.2
      simp only [scanStepT, h1, h2]
      simp only [Bool.false_eq_true, if_false, if_pos]
      exact this
    · have := main stack hbase.1 hB hbase.2
      simp only [scanStepT, h1, h2]
      simp only [Bool.false_eq_true, if_false]
      exact this

theorem foldl_scanStepT_inv (lines : List Str) :
    ∀ st : List StackEntry × List TRange × Nat, ScanInv st →
      ScanInv (lines.foldl scanStepT st) := by
  induction lines with
  | nil => intro st h; exact h
  | cons l ls ih =>
    intro st h
    rw [List.foldl_cons]
    obtain ⟨stack, ranges, i⟩ := st
    exact ih _ (scanStepT_inv stack ranges i l h)

theorem scanTagged_invariant (lines : List Str) :
    ScanInv (lines.foldl scanStepT ([], [], 0)) :=
  foldl_scanStepT_inv lines _
    ⟨by simp, by simp, by simp, by simp, by simp, by simp⟩

/-- Claim C6 counterexample: on the four lines `[`, `{`, `]`, `}` the scanner emits the
ranges (1,3) and (2,4), which partially overlap - neither disjoint nor nested. -/
theorem provideFoldingRanges_partial_overlap :
    provideFoldingRanges ["[".data, "\x7b".data, "]".data, "\x7d".data]
        = [⟨1, 3⟩, ⟨2, 4⟩]
    ∧ ¬ nestedOrDisjoint ⟨1, 3⟩ ⟨2, 4⟩ := by
  constructor
  · decide
  · intro hcon
    simp only [nestedOrDisjoint] at hcon
    omega

/-- Claim C6 as amended: on every input every emitted range satisfies
`startLine < endLine`, and ranges emitted for the same delimiter class (`{...}` or
`[...]`, recorded by the instrumented scanner whose erasure is the plain scanner) are
pairwise well-nested; ranges of different classes may partially overlap when the input
interleaves the two classes (see the counterexample). -/
theorem foldRanges_wellNested_same_class (lines : List Str) :
    provideFoldingRanges lines = (scanTagged lines).map eraseTag
    ∧ (∀ r ∈ provideFoldingRanges lines, r.start < r.stop)
    ∧ (∀ t1 ∈ scanTagged lines, ∀ t2 ∈ scanTagged lines,
        t1.ch = t2.ch → nestedOrDisjoint (eraseTag t1) (eraseTag t2)) := by
  have herase : provideFoldingRanges lines = (scanTagged lines).map eraseTag :=
    (provide_eq_compute lines).trans (compute_eq_scanTagged lines)
  obtain ⟨_, _, hC, _, _, hF⟩ := scanTagged_invariant lines
  refine ⟨herase, ?_, ?_⟩
  · intro r hr
    rw [herase] at hr
    obtain ⟨t, ht, rfl⟩ := List.mem_map.mp hr
    exact (hC t ht).1
  · intro t1 h1 t2 h2 hch
    exact hF t1 h1 t2 h2 hch

/-- Witness for the amended C6: on `{`, `{`, `}`, `}` the two brace ranges (2,3) and
(1,4) are nested. -/
theorem foldRanges_wellNested_same_class_witness :
    nestedOrDisjoint (eraseTag ⟨2, 3, '\x7b'⟩) (eraseTag ⟨1, 4, '\x7b'⟩) :=
  (foldRanges_wellNested_same_class
      ["\x7b".data, "\x7b".data, "\x7d".data, "\x7d".data]).2.2
    ⟨2, 3, '\x7b'⟩ (by decide) ⟨1, 4, '\x7b'⟩ (by decide) rfl

theorem closerChar_some_shapes (t : Str) (c : Char) (h : closerChar t = some c) :
    ((t = "\x7d".data ∨ t = "\x7d,".data) ∧ c = '\x7b')
    ∨ ((t = "]".data ∨ t = "],".data) ∧ c = '[') := by
  rw [closerChar] at h
  by_cases h1 : t = "\x7d".data ∨ t = "\x7d,".data
  · rw [if_pos h1] at h
    exact Or.inl ⟨h1, (Option.some.inj h).symm⟩
  · rw [if_neg h1] at h
    by_cases h2 : t = "]".data ∨ t = "],".data
    · rw [if_pos h2] at h
      exact Or.inr ⟨h2, (Option.some.inj h).symm⟩
    · rw [if_neg h2] at h
      simp at h

theorem removeLastMatch_none (c : Char) (stack : List StackEntry)
    (h : ∀ e ∈ stack, e.char ≠ c) : removeLastMatch c stack = none := by
  induction stack with
  | nil => rfl
  | cons a rest ih =>
    rw [removeLastMatch, ih (fun e he => h e (List.mem_cons_of_mem a he))]
    dsimp only
    rw [if_neg (h a (List.mem_cons_self a rest))]

theorem processLine_opener (ranges : List FoldRange) (stack : List StackEntry) (i : Nat)
    (l : Str) (h : (endsWithChar (jsTrim l) '\x7b' || endsWithChar (jsTrim l) '[') = true) :
    processLine ranges stack i l
      = (ranges,
          stack ++ [⟨i + 1, if endsWithChar (jsTrim l) '\x7b' then '\x7b' else '['⟩]) := by
  have hnc : ¬((jsTrim l = "\x7d".data ∨ jsTrim l = "\x7d,".data)
      ∨ (jsTrim l = "]".data ∨ jsTrim l = "],".data)) := by
    intro hcl
    obtain ⟨h1, h2⟩ := closer_not_ends_open _ hcl
    rw [h1, h2] at h
    exact absurd h (by decide)
  simp only [processLine, if_pos h, if_neg hnc]

theorem processLine_closer_nomatch (ranges : List FoldRange) (stack : List StackEntry)
    (i : Nat) (l : Str) (c : Char) (hcc : closerChar (jsTrim l) = some c)
    (hno : ∀ e ∈ stack, e.char ≠ c) :
    processLine ranges stack i l = (ranges, stack) := by
  rcases closerChar_some_shapes _ _ hcc with ⟨hbr, rfl⟩ | ⟨hbk, rfl⟩
  · obtain ⟨hn1, hn2⟩ := closer_not_ends_open _ (Or.inl hbr)
    simp only [processLine, hn1, hn2, Bool.or_self, Bool.false_eq_true, if_false,
      if_pos (Or.inl hbr : (jsTrim l = "\x7d".data ∨ jsTrim l = "\x7d,".data)
        ∨ (jsTrim l = "]".data ∨ jsTrim l = "],".data)), if_pos hbr]
    rw [spliceClose_eq_removeLastMatch, removeLastMatch_none '\x7b' stack hno]
  · obtain ⟨hn1, hn2⟩ := closer_not_ends_open _ (Or.inr hbk)
    have hnbr : ¬(jsTrim l = "\x7d".data ∨ jsTrim l = "\x7d,".data) := by
      rcases hbk with h | h <;> rw [h] <;> decide
    simp only [processLine, hn1, hn2, Bool.or_self, Bool.false_eq_true, if_false,
      if_pos (Or.inr hbk : (jsTrim l = "\x7d".data ∨ jsTrim l = "\x7d,".data)
        ∨ (jsTrim l = "]".data ∨ jsTrim l = "],".data)), if_neg hnbr]
    rw [spliceClose_eq_removeLastMatch, removeLastMatch_none '[' stack hno]

theorem scanGo_append (xs ys : List Str) : ∀ (i : Nat) (ranges : List FoldRange)
    (stack : List StackEntry),
    scanGo i ranges stack (xs ++ ys)
      = scanGo (i + xs.length) (scanGo i ranges stack xs).1
          (scanGo i ranges stack xs).2 ys := by
  induction xs with
  | nil =>
    intro i r s
    simp [scanGo]
  | cons x xs ih =>
    intro i r s
    simp only [List.cons_append, scanGo, List.append_eq]
    rw [ih]
    have h3 : i + (xs.length + 1) = i + 1 + xs.length := by omega
    simp only [List.length_cons, h3]

/-- Claim C7: the fold-range scanner is total and silent about mismatches - a trailing
opener line adds no range (an opener left on the stack at end of input is dropped
without error), a closer line whose matching open character is nowhere on the stack
leaves both the output and the stack unchanged, and the returned ranges are listed in
emission order, i.e. with strictly increasing closing lines, the order the closers were
encountered (not sorted by start line). -/
theorem foldRanges_edge_policy (lines : List Str) (l : Str) (ranges : List FoldRange)
    (stack : List StackEntry) (i : Nat) (c : Char) :
    ((endsWithChar (jsTrim l) '\x7b' || endsWithChar (jsTrim l) '[') = true →
      provideFoldingRanges (lines ++ [l]) = provideFoldingRanges lines)
    ∧ (closerChar (jsTrim l) = some c → (∀ e ∈ stack, e.char ≠ c) →
        processLine ranges stack i l = (ranges, stack))
    ∧ List.Pairwise (fun a b => a.stop < b.stop) (provideFoldingRanges lines) := by
  refine ⟨?_, fun hcc hno => processLine_closer_nomatch ranges stack i l c hcc hno, ?_⟩
  · intro hopen
    rw [provideFoldingRanges, provideFoldingRanges, scanGo_append]
    simp only [scanGo]
    rw [processLine_opener _ _ _ _ hopen]
  · have herase : provideFoldingRanges lines = (scanTagged lines).map eraseTag :=
      (provide_eq_compute lines).trans (compute_eq_scanTagged lines)
    obtain ⟨_, _, _, hD, _, _⟩ := scanTagged_invariant lines
    rw [herase]
    exact List.pairwise_map.mpr hD

/-- Witness for C7: a trailing opener after `{` emits nothing, and the closer `}` on a
stack holding only a bracket entry is ignored. -/
theorem foldRanges_edge_policy_witness :
    provideFoldingRanges ["\x7b".data, "[".data] = provideFoldingRanges ["\x7b".data]
    ∧ processLine [] [⟨1, '['⟩] 1 "\x7d".data = ([], [⟨1, '['⟩]) :=
  ⟨(foldRanges_edge_policy ["\x7b".data] "[".data [] [] 0 ' ').1 (by decide),
   (foldRanges_edge_policy [] "\x7d".data [] [⟨1, '['⟩] 1 '\x7b').2.1 (by decide)
     (by decide)⟩
